import Mathlib

/-!
Shallow embedding of `tethne/readers/mallet.py`: the MALLET output reader
(`load`, `_handle_top_doc`, `_handle_word_top`, `_handle_topic_keys`,
`_handle_metadata`).

Modelling conventions:
* A tab/space-delimited file is given as its list of already-split rows
  (`List (List String)`); `csv.reader` with a one-character delimiter
  produces exactly the per-row field lists for the unquoted data at hand.
* Python `int(...)` / `float(...)` on the numeric field syntax occurring in
  MALLET files (optional sign, digits, optional decimal point) are embedded
  as `parsePyInt` / `parsePyFloat`, returning `none` where Python raises
  `ValueError`.
* Python dicts are embedded as association lists in insertion order;
  assignment to an existing key replaces the stored value in place
  (`dictInsert`), which is CPython's update semantics.
* NumPy float arrays are embedded as rectangular `List (List _)` matrices.
  Indexed assignment `a[i, j] = v` bound-checks each axis against the array
  shape, accepting negative indices down to `-len` (wrap-around) and raising
  `IndexError` otherwise; `npIdx`/`npSet` model this exactly.  The spec's
  error taxonomy names the axis-out-of-bounds `IndexError` on the topic axis
  `TopicIndexOutOfRangeError`; we keep one constructor per axis.
* IEEE-754 division by zero in the normalisation step is modelled by the
  carrier `PFloat`: a rational value, or `nan` / signed infinity, with the
  IEEE special-case rules for the additions and divisions the code performs.
  Rational arithmetic stands in for exact (round-off-free) float arithmetic.
* Exceptions become `Except LoadErr`; the spec's `MalformedRowError`
  collects Python's `ValueError` (bad numeric literal) and `IndexError`
  (missing column / missing `:` part) raised while a row is consumed.
-/

attribute [local semireducible] Rat.add Rat.mul Rat.inv Rat.sub

deriving instance DecidableEq for Except

/-- Errors escaping the reader: the Python exceptions it lets propagate,
named after the spec's error taxonomy. -/
inductive LoadErr where
  | malformedRow (row : List String)
  | docIndexOutOfRange (d : Int)
  | topicIndexOutOfRange (t : Int)
  | wordIndexOutOfRange (w : Int)
  deriving Repr, DecidableEq

/-- Whitespace characters stripped by Python's `str.strip()` / numeric
parsing, restricted to those occurring in these files. -/
def isPyWs (c : Char) : Bool :=
  c = ' ' ∨ c = '\t' ∨ c = '\n' ∨ c = '\r'

/-- Strip leading and trailing whitespace from a character list (the
character-level body of Python's `str.strip()`). -/
def pyStrip (l : List Char) : List Char :=
  ((l.dropWhile isPyWs).reverse.dropWhile isPyWs).reverse

/-- Strip one optional leading sign; returns (isNegative, rest). -/
def stripSignChars : List Char → Bool × List Char
  | '-' :: rest => (true, rest)
  | '+' :: rest => (false, rest)
  | l => (false, l)

/-- Split a character list at every occurrence of `sep` (the body of
Python's `str.split(sep)` for a one-character separator): `"a:b" ↦ [a, b]`,
`":" ↦ [[], []]`, `"" ↦ [[]]`. -/
def splitOnChar (sep : Char) : List Char → List (List Char)
  | [] => [[]]
  | c :: rest =>
      match splitOnChar sep rest with
      | [] => [[c]]
      | g :: gs => if c = sep then [] :: g :: gs else (c :: g) :: gs

/-- Value of a contiguous digit list, `"123" ↦ 123`. -/
def digitsVal (l : List Char) : Nat :=
  l.foldl (fun n c => n * 10 + (c.toNat - 48)) 0

/-- Parse a nonempty all-digit list, else `none`. -/
def parseNatDigits (l : List Char) : Option Nat :=
  if l ≠ [] ∧ l.all Char.isDigit then some (digitsVal l) else none

/-- Python `int(s)` on the integer literals at hand: optional surrounding
whitespace, optional sign, digits.  `none` models `ValueError`. -/
def parsePyInt (s : String) : Option Int :=
  let (neg, u) := stripSignChars (pyStrip s.data)
  (parseNatDigits u).map fun n => if neg then -(n : Int) else (n : Int)

/-- Python `float(s)` on the decimal literals at hand: optional surrounding
whitespace, optional sign, digits with an optional decimal point (at least
one digit overall).  The value is exact, as a rational.  `none` models
`ValueError`. -/
def parsePyFloat (s : String) : Option ℚ :=
  let (neg, u) := stripSignChars (pyStrip s.data)
  let signed : ℚ → ℚ := fun q => if neg then -q else q
  match splitOnChar '.' u with
  | [a] => (parseNatDigits a).map fun n => signed n
  | [a, b] =>
      if (a ≠ [] ∨ b ≠ []) ∧ a.all Char.isDigit ∧ b.all Char.isDigit then
        some (signed ((digitsVal a : ℚ) + (digitsVal b : ℚ) / (10 : ℚ) ^ b.length))
      else none
  | _ => none

/-- Python `str.split()` (no argument) on the space-separated keyword field:
split on whitespace runs, dropping empty tokens (the field sits in a
tab-delimited column, so spaces are the only whitespace it contains). -/
def pySplitWs (s : String) : List String :=
  ((splitOnChar ' ' s.data).filter (fun g => g ≠ [])).map fun g => String.mk g

/-- CPython dict assignment `d[k] = v` on an insertion-ordered association
list: replace in place when the key exists, else append. -/
def dictInsert {V : Type} (d : List (Int × V)) (k : Int) (v : V) : List (Int × V) :=
  if d.any (fun p => p.1 = k) then d.map (fun p => if p.1 = k then (k, v) else p)
  else d ++ [(k, v)]

/-- Dict lookup `d[k]` (first — and, by the `dictInsert` invariant, only —
entry with key `k`). -/
def dictLookup {V : Type} (d : List (Int × V)) (k : Int) : Option V :=
  (d.find? (fun p => p.1 = k)).map (·.2)

/-- Build a dict row by row: parse each row to a key/value pair and insert it;
a row that fails to parse aborts the stage with `MalformedRowError` carrying
that row (Python: the `ValueError`/`IndexError` escapes). -/
def buildTable {V : Type} (parseRow : List String → Option (Int × V))
    (rows : List (List String)) : Except LoadErr (List (Int × V)) :=
  rows.foldlM
    (fun d line =>
      match parseRow line with
      | none => .error (.malformedRow line)
      | some (k, v) => .ok (dictInsert d k v))
    []

/-- IEEE-style float carrier for the normalisation step: exact rational
values plus `nan` and the two infinities. -/
inductive PFloat where
  | nan
  | pinf
  | ninf
  | val (q : ℚ)
  deriving Repr, DecidableEq

/-- IEEE addition on `PFloat` (exact on finite values). -/
def pfAdd : PFloat → PFloat → PFloat
  | .nan, _ => .nan
  | _, .nan => .nan
  | .pinf, .ninf => .nan
  | .ninf, .pinf => .nan
  | .pinf, _ => .pinf
  | _, .pinf => .pinf
  | .ninf, _ => .ninf
  | _, .ninf => .ninf
  | .val a, .val b => .val (a + b)

/-- IEEE division on `PFloat` (exact on finite values): dividing by zero
gives `nan` on a zero numerator and a signed infinity otherwise. -/
def pfDiv : PFloat → PFloat → PFloat
  | .nan, _ => .nan
  | _, .nan => .nan
  | .pinf, .pinf => .nan
  | .pinf, .ninf => .nan
  | .ninf, .pinf => .nan
  | .ninf, .ninf => .nan
  | .pinf, .val b => if 0 ≤ b then .pinf else .ninf
  | .ninf, .val b => if 0 ≤ b then .ninf else .pinf
  | .val _, .pinf => .val 0
  | .val _, .ninf => .val 0
  | .val a, .val b =>
      if b = 0 then (if a = 0 then .nan else if 0 < a then .pinf else .ninf)
      else .val (a / b)

/-- NumPy index resolution against an axis of length `n`: `0 ≤ i < n` is
itself, `-n ≤ i < 0` wraps to `n + i`, anything else is `IndexError`. -/
def npIdx (n : Nat) (i : Int) : Option Nat :=
  if 0 ≤ i ∧ i < (n : Int) then some i.toNat
  else if -(n : Int) ≤ i ∧ i < 0 then some ((n : Int) + i).toNat
  else none

/-- `np.zeros((r, c))` with entries drawn from an arbitrary zero element. -/
def npZeros {α : Type} (r c : Nat) (z : α) : List (List α) :=
  List.replicate r (List.replicate c z)

/-- NumPy indexed assignment `a[i, j] = v` on an `R × C` array: resolve both
indices (raising the per-axis `IndexError` carried in `ei` / `ej`, axis 0
checked first) and overwrite the cell. -/
def npSet {α : Type} (R C : Nat) (ei ej : LoadErr) (m : List (List α))
    (i j : Int) (v : α) : Except LoadErr (List (List α)) :=
  match npIdx R i with
  | none => .error ei
  | some i2 =>
      match npIdx C j with
      | none => .error ej
      | some j2 => .ok (m.set i2 ((m.getD i2 []).set j2 v))

/-- Read cell `(i, j)` of a matrix, with default `z` (irrelevant in range). -/
def cell {α : Type} (z : α) (m : List (List α)) (i j : Nat) : α :=
  (m.getD i []).getD j z

/-- One pending indexed assignment `a[row, col] = val`, with the per-axis
`IndexError` values. -/
structure MWrite (α : Type) where
  row : Int
  col : Int
  erow : LoadErr
  ecol : LoadErr
  val : α
  deriving Repr, DecidableEq

/-- Run a sequence of NumPy indexed assignments left to right. -/
def runWrites {α : Type} (R C : Nat) (ws : List (MWrite α))
    (m : List (List α)) : Except LoadErr (List (List α)) :=
  ws.foldlM (fun acc w => npSet R C w.erow w.ecol acc w.row w.col w.val) m

/-- Value a write sequence leaves in cell `(i, j)` of an array whose cell
held `z`: the value of the last write resolving to `(i, j)`, else `z`. -/
def lastWrite {α : Type} (R C : Nat) (ws : List (MWrite α)) (i j : Nat)
    (z : α) : α :=
  ws.foldl
    (fun a w => if npIdx R w.row = some i ∧ npIdx C w.col = some j then w.val else a)
    z

/-- The pair loop of `_handle_top_doc`: `for i in xrange(0, len(t)-1, 2)`
consumes `(t[i], t[i+1])` while at least two columns remain. -/
def takePairs : List String → List (String × String)
  | a :: b :: rest => (a, b) :: takePairs rest
  | _ => []

/-- One data row of the topic-document file:
`t = line[2:]`, pairs `(int(t[i]), float(t[i+1]))`, then
`documents[int(line[0])] = (line[1], tops)`.  `none` models the
`ValueError`/`IndexError` escaping on a malformed row. -/
def parseTopDocRow (line : List String) : Option (Int × String × List (Int × ℚ)) := do
  let tops ← (takePairs (line.drop 2)).mapM fun ab => do
    let t ← parsePyInt ab.1
    let p ← parsePyFloat ab.2
    pure (t, p)
  let lbl ← line.get? 1
  let d ← parsePyInt (← line.get? 0)
  pure (d, lbl, tops)

/-- Key/value view of a parsed topic-document row, as stored into the
`documents` dict. -/
def parseTopDocKV (line : List String) :
    Option (Int × (String × List (Int × ℚ))) :=
  (parseTopDocRow line).map fun r => (r.1, r.2)

/-- The `documents` dict of `_handle_top_doc`: header row discarded
(`[1:]`), each remaining row parsed and assigned into the dict. -/
def buildDocuments (rows : List (List String)) :
    Except LoadErr (List (Int × String × List (Int × ℚ))) :=
  buildTable parseTopDocKV (rows.drop 1)

/-- The write sequence of the fill loops of `_handle_top_doc`:
`td[d, t] = p` for each doc entry and each of its pairs, in order. -/
def tdWrites (docs : List (Int × String × List (Int × ℚ))) :
    List (MWrite ℚ) :=
  docs.flatMap fun dd =>
    dd.2.2.map fun tp =>
      ⟨dd.1, tp.1, .docIndexOutOfRange dd.1, .topicIndexOutOfRange tp.1, tp.2⟩

/-- The matrix phase of `_handle_top_doc`:
`td = np.zeros((len(documents), Z))` then `td[d, t] = p` over the dict. -/
def fillTopDoc (docs : List (Int × String × List (Int × ℚ))) (Z : Nat) :
    Except LoadErr (List (List ℚ)) :=
  docs.foldlM
    (fun td dd =>
      dd.2.2.foldlM
        (fun td2 tp =>
          npSet docs.length Z (.docIndexOutOfRange dd.1)
            (.topicIndexOutOfRange tp.1) td2 dd.1 tp.1 tp.2)
        td)
    (npZeros docs.length Z (0 : ℚ))

/-- `_handle_top_doc(path, Z)`. -/
def handle_top_doc (rows : List (List String)) (Z : Nat) :
    Except LoadErr (List (List ℚ)) := do
  fillTopDoc (← buildDocuments rows) Z

/-- One `"topicIndex:count"` token of the word-topic file:
`int(tuple(l.split(':'))[0]) : float(tuple(l.split(':'))[1])`.  A missing
second part is Python's `IndexError`, a bad numeral a `ValueError`; both
yield `none`. -/
def parseToken (tok : String) : Option (Int × ℚ) := do
  let parts := splitOnChar ':' tok.data
  let t ← parsePyInt (String.mk (parts.getD 0 []))
  let p1 ← parts.get? 1
  let c ← parsePyFloat (String.mk p1)
  pure (t, c)

/-- One row of the word-topic file: the token dict comprehension over
`line[2:]` (later duplicate topic keys overwrite), then
`words[int(line[0])] = (line[1], tc)`. -/
def parseWordTopRow (line : List String) : Option (Int × String × List (Int × ℚ)) := do
  let tc ← (line.drop 2).foldlM
    (fun acc tok => do
      let tp ← parseToken tok
      pure (dictInsert acc tp.1 tp.2))
    []
  let lbl ← line.get? 1
  let w ← parsePyInt (← line.get? 0)
  pure (w, lbl, tc)

/-- Key/value view of a parsed word-topic row, as stored into the
`words` dict. -/
def parseWordTopKV (line : List String) :
    Option (Int × (String × List (Int × ℚ))) :=
  (parseWordTopRow line).map fun r => (r.1, r.2)

/-- The `words` dict of `_handle_word_top` (no header row). -/
def buildWords (rows : List (List String)) :
    Except LoadErr (List (Int × String × List (Int × ℚ))) :=
  buildTable parseWordTopKV rows

/-- The write sequence of the fill loops of `_handle_word_top`:
`wt[t, w] = p` for each word entry and each of its topic counts, in order. -/
def wtWrites (ws : List (Int × String × List (Int × ℚ))) :
    List (MWrite PFloat) :=
  ws.flatMap fun wd =>
    wd.2.2.map fun tp =>
      ⟨tp.1, wd.1, .topicIndexOutOfRange tp.1, .wordIndexOutOfRange wd.1, .val tp.2⟩

/-- The raw-matrix phase of `_handle_word_top`:
`wt = np.zeros((Z, len(words)))` then `wt[t, w] = p` over the dict. -/
def fillWordTop (ws : List (Int × String × List (Int × ℚ))) (Z : Nat) :
    Except LoadErr (List (List PFloat)) :=
  ws.foldlM
    (fun wt wd =>
      wd.2.2.foldlM
        (fun wt2 tp =>
          npSet Z ws.length (.topicIndexOutOfRange tp.1)
            (.wordIndexOutOfRange wd.1) wt2 tp.1 wd.1 (.val tp.2))
        wt)
    (npZeros Z ws.length (PFloat.val 0))

/-- `np.sum(wt[t,:])`: left fold of IEEE addition from `0.0`. -/
def rowSum (r : List PFloat) : PFloat :=
  r.foldl pfAdd (.val 0)

/-- `wt[t,:] /= np.sum(wt[t,:])`: divide every entry of the row by the
row's sum, unconditionally. -/
def normalizeRow (r : List PFloat) : List PFloat :=
  r.map fun x => pfDiv x (rowSum r)

/-- The normalisation loop `for t in xrange(Z): wt[t,:] /= np.sum(wt[t,:])`. -/
def normalizeWt (Z : Nat) (m : List (List PFloat)) : List (List PFloat) :=
  (List.range Z).foldl (fun acc t => acc.set t (normalizeRow (acc.getD t []))) m

/-- `_handle_word_top(path, Z)`. -/
def handle_word_top (rows : List (List String)) (Z : Nat) :
    Except LoadErr (List (List PFloat)) := do
  let ws ← buildWords rows
  let wt ← fillWordTop ws Z
  pure (normalizeWt Z wt)

/-- One row of the topic-keys file:
`tk[int(l[0])] = (float(l[1]), l[2].split())`. -/
def parseTopicKeysRow (l : List String) : Option (Int × ℚ × List String) := do
  let w ← parsePyFloat (← l.get? 1)
  let ks ← (l.get? 2).map pySplitWs
  let t ← parsePyInt (← l.get? 0)
  pure (t, w, ks)

/-- Key/value view of a parsed topic-keys row, as stored into the `tk`
dict. -/
def parseTopicKeysKV (l : List String) : Option (Int × (ℚ × List String)) :=
  (parseTopicKeysRow l).map fun r => (r.1, r.2)

/-- `_handle_topic_keys(path)` (no header row). -/
def handle_topic_keys (rows : List (List String)) :
    Except LoadErr (List (Int × ℚ × List String)) :=
  buildTable parseTopicKeysKV rows

/-- One row of the metadata file: `md[int(l[0])] = l[1]`. -/
def parseMetadataRow (l : List String) : Option (Int × String) := do
  let v ← l.get? 1
  let d ← parsePyInt (← l.get? 0)
  pure (d, v)

/-- `_handle_metadata(path)`: header row discarded, then the dict. -/
def handle_metadata (rows : List (List String)) :
    Except LoadErr (List (Int × String)) :=
  buildTable parseMetadataRow (rows.drop 1)

/-- Modelled from the spec: the aggregate `Model` (`tethne.data.LDAModel`,
whose definition is not under `src/`) holds references to the four parsed
structures, with the metadata map a nullable/absent variant; it is a plain
immutable container created once by the assembler. -/
structure LDAModel where
  td : List (List ℚ)
  wt : List (List PFloat)
  tk : List (Int × ℚ × List String)
  md : Option (List (Int × String))
  deriving Repr, DecidableEq

/-- `load(top_doc, word_top, topic_keys, Z, metadata=None)`: run the four
stages (metadata only when a source is supplied) and package the result. -/
def load (top_doc word_top topic_keys : List (List String)) (Z : Nat)
    (metadata : Option (List (List String))) : Except LoadErr LDAModel := do
  let td ← handle_top_doc top_doc Z
  let wt ← handle_word_top word_top Z
  let tk ← handle_topic_keys topic_keys
  let md ← match metadata with
    | some mrows => Except.map some (handle_metadata mrows)
    | none => pure none
  pure ⟨td, wt, tk, md⟩

/-- Rectangular matrix predicate: `R` rows, each of length `C`. -/
def Rect {α : Type} (R C : Nat) (m : List (List α)) : Prop :=
  m.length = R ∧ ∀ r ∈ m, r.length = C

/-- Value of the last pair with key `k` in a key/value list (the value a
sequence of dict assignments leaves for `k`). -/
def lastVal {V : Type} (ps : List (Int × V)) (k : Int) : Option V :=
  (ps.reverse.find? (fun p => p.1 = k)).map (·.2)

/-! ## Lemmas: NumPy index resolution and single writes -/

theorem npIdx_lt {n : Nat} {i : Int} {k : Nat} (h : npIdx n i = some k) : k < n := by
  unfold npIdx at h
  split at h
  · injection h with h2
    omega
  · split at h
    · injection h with h2
      omega
    · cases h

theorem npIdx_of_nonneg {n : Nat} {i : Int} {k : Nat} (h0 : 0 ≤ i)
    (h : npIdx n i = some k) : i = (k : Int) ∧ i < (n : Int) := by
  unfold npIdx at h
  split at h
  · injection h with h2
    omega
  · split at h
    · omega
    · cases h

theorem npIdx_eq_some_of_nonneg {n : Nat} {i : Int} (h0 : 0 ≤ i) (hn : i < (n : Int)) :
    npIdx n i = some i.toNat := by
  unfold npIdx
  rw [if_pos ⟨h0, hn⟩]

theorem npIdx_none_of_ge {n : Nat} {i : Int} (h : (n : Int) ≤ i) : npIdx n i = none := by
  unfold npIdx
  rw [if_neg (by omega), if_neg (by omega)]

theorem rect_npZeros {α : Type} (R C : Nat) (z : α) : Rect R C (npZeros R C z) := by
  refine ⟨by simp [npZeros], fun r hr => ?_⟩
  rw [List.eq_of_mem_replicate hr]
  simp

theorem cell_npZeros {α : Type} (R C i j : Nat) (z : α) :
    cell z (npZeros R C z) i j = z := by
  unfold cell npZeros
  rcases lt_or_ge i R with h | h
  · rw [List.getD_eq_getElem (List.replicate R (List.replicate C z)) [] (by simpa using h),
      List.getElem_replicate]
    rcases lt_or_ge j C with h2 | h2
    · rw [List.getD_eq_getElem _ _ (by simpa using h2), List.getElem_replicate]
    · rw [List.getD_eq_getElem?_getD, List.getElem?_eq_none (by simpa using h2)]
      rfl
  · rw [List.getD_eq_getElem?_getD (List.replicate R (List.replicate C z)),
      List.getElem?_eq_none (by simpa using h)]
    rfl

theorem npSet_eq_ok {α : Type} {R C : Nat} {ei ej : LoadErr} {m : List (List α)}
    {i j : Int} {i2 j2 : Nat} {v : α}
    (hi : npIdx R i = some i2) (hj : npIdx C j = some j2) :
    npSet R C ei ej m i j v = .ok (m.set i2 ((m.getD i2 []).set j2 v)) := by
  unfold npSet
  rw [hi, hj]

theorem npSet_err_row {α : Type} {R C : Nat} {ei ej : LoadErr} {m : List (List α)}
    {i j : Int} {v : α} (hi : npIdx R i = none) :
    npSet R C ei ej m i j v = .error ei := by
  unfold npSet
  rw [hi]

theorem npSet_err_col {α : Type} {R C : Nat} {ei ej : LoadErr} {m : List (List α)}
    {i j : Int} {i2 : Nat} {v : α} (hi : npIdx R i = some i2) (hj : npIdx C j = none) :
    npSet R C ei ej m i j v = .error ej := by
  unfold npSet
  rw [hi, hj]

theorem npSet_ok_inRange {α : Type} {R C : Nat} {ei ej : LoadErr} {m m2 : List (List α)}
    {i j : Int} {v : α} (h : npSet R C ei ej m i j v = .ok m2) :
    (npIdx R i).isSome ∧ (npIdx C j).isSome := by
  unfold npSet at h
  cases hR : npIdx R i with
  | none => rw [hR] at h; cases h
  | some i2 =>
      cases hC : npIdx C j with
      | none => rw [hR, hC] at h; cases h
      | some j2 => simp

theorem rect_set_cell {α : Type} {R C : Nat} {m : List (List α)} (hm : Rect R C m)
    {i2 j2 : Nat} (hi2 : i2 < R) (v : α) :
    Rect R C (m.set i2 ((m.getD i2 []).set j2 v)) := by
  refine ⟨by simpa using hm.1, fun r hr => ?_⟩
  rcases List.mem_or_eq_of_mem_set hr with h | h
  · exact hm.2 r h
  · subst h
    rw [List.length_set]
    have hlen : i2 < m.length := by rw [hm.1]; exact hi2
    rw [List.getD_eq_getElem _ _ hlen]
    exact hm.2 _ (List.getElem_mem hlen)

theorem cell_set {α : Type} {z : α} {R C : Nat} {m : List (List α)} (hm : Rect R C m)
    {i2 j2 : Nat} (hi2 : i2 < R) (hj2 : j2 < C) (v : α) (i j : Nat)
    (hiR : i < R) (hjC : j < C) :
    cell z (m.set i2 ((m.getD i2 []).set j2 v)) i j =
      if i2 = i ∧ j2 = j then v else cell z m i j := by
  have hiRm : i < m.length := by rw [hm.1]; exact hiR
  have hi2m : i2 < m.length := by rw [hm.1]; exact hi2
  have hrow : (m.getD i2 []).length = C := by
    rw [List.getD_eq_getElem _ _ hi2m]
    exact hm.2 _ (List.getElem_mem hi2m)
  unfold cell
  by_cases hii : i2 = i
  · subst hii
    rw [List.getD_eq_getElem (m.set i2 ((m.getD i2 []).set j2 v)) []
        (by rw [List.length_set]; exact hi2m),
      List.getElem_set_self (by rw [List.length_set]; exact hi2m)]
    by_cases hjj : j2 = j
    · subst hjj
      rw [List.getD_eq_getElem ((m.getD i2 []).set j2 v) z
          (by rw [List.length_set, hrow]; exact hj2),
        List.getElem_set_self (by rw [List.length_set, hrow]; exact hj2),
        if_pos ⟨rfl, rfl⟩]
    · rw [List.getD_eq_getElem ((m.getD i2 []).set j2 v) z
          (by rw [List.length_set, hrow]; exact hjC),
        List.getElem_set_ne hjj, if_neg (by tauto),
        List.getD_eq_getElem (m.getD i2 []) z (by rw [hrow]; exact hjC)]
  · rw [List.getD_eq_getElem (m.set i2 ((m.getD i2 []).set j2 v)) []
        (by rw [List.length_set]; exact hiRm),
      List.getElem_set_ne hii, if_neg (by tauto),
      List.getD_eq_getElem m [] hiRm]

/-! ## Lemmas: write sequences -/

theorem runWrites_nil {α : Type} (R C : Nat) (m : List (List α)) :
    runWrites R C [] m = .ok m := rfl

theorem runWrites_cons_ok {α : Type} {R C : Nat} {w : MWrite α} {ws : List (MWrite α)}
    {m m2 : List (List α)}
    (h : npSet R C w.erow w.ecol m w.row w.col w.val = .ok m2) :
    runWrites R C (w :: ws) m = runWrites R C ws m2 := by
  unfold runWrites
  rw [List.foldlM_cons, h]
  rfl

theorem runWrites_cons_err {α : Type} {R C : Nat} {w : MWrite α} {ws : List (MWrite α)}
    {m : List (List α)} {e : LoadErr}
    (h : npSet R C w.erow w.ecol m w.row w.col w.val = .error e) :
    runWrites R C (w :: ws) m = .error e := by
  unfold runWrites
  rw [List.foldlM_cons, h]
  rfl

theorem runWrites_rect {α : Type} {R C : Nat} {ws : List (MWrite α)}
    {m m2 : List (List α)} (hm : Rect R C m)
    (h : runWrites R C ws m = .ok m2) : Rect R C m2 := by
  induction ws generalizing m with
  | nil => rw [runWrites_nil] at h; cases h; exact hm
  | cons w ws ih =>
      cases hs : npSet R C w.erow w.ecol m w.row w.col w.val with
      | error e => rw [runWrites_cons_err hs] at h; cases h
      | ok m1 =>
          rw [runWrites_cons_ok hs] at h
          rcases npSet_ok_inRange hs with ⟨hri, _⟩
          rcases hri2 : npIdx R w.row with _ | i2
          · rw [hri2] at hri; cases hri
          · rcases hcj : npIdx C w.col with _ | j2
            · rw [npSet_err_col hri2 hcj] at hs; cases hs
            · rw [npSet_eq_ok hri2 hcj] at hs
              cases hs
              exact ih (rect_set_cell hm (npIdx_lt hri2) w.val) h

theorem runWrites_ok_inRange {α : Type} {R C : Nat} {ws : List (MWrite α)}
    {m m2 : List (List α)} (h : runWrites R C ws m = .ok m2) :
    ∀ w ∈ ws, (npIdx R w.row).isSome ∧ (npIdx C w.col).isSome := by
  induction ws generalizing m with
  | nil => intro w hw; cases hw
  | cons w0 ws ih =>
      intro w hw
      cases hs : npSet R C w0.erow w0.ecol m w0.row w0.col w0.val with
      | error e => rw [runWrites_cons_err hs] at h; cases h
      | ok m1 =>
          rw [runWrites_cons_ok hs] at h
          rcases List.mem_cons.mp hw with rfl | hmem
          · exact npSet_ok_inRange hs
          · exact ih h w hmem

theorem runWrites_err_of_bad {α : Type} {R C : Nat} {ws : List (MWrite α)}
    {w : MWrite α} (hw : w ∈ ws)
    (hbad : npIdx R w.row = none ∨ npIdx C w.col = none)
    (m : List (List α)) : ∃ e, runWrites R C ws m = .error e := by
  induction ws generalizing m with
  | nil => cases hw
  | cons w0 ws ih =>
      cases hs : npSet R C w0.erow w0.ecol m w0.row w0.col w0.val with
      | error e => exact ⟨e, runWrites_cons_err hs⟩
      | ok m1 =>
          rcases List.mem_cons.mp hw with rfl | hmem
          · rcases npSet_ok_inRange hs with ⟨h1, h2⟩
            rcases hbad with hb | hb
            · rw [hb] at h1; cases h1
            · rw [hb] at h2; cases h2
          · rw [runWrites_cons_ok hs]
            exact ih hmem m1

theorem lastWrite_nil {α : Type} (R C : Nat) (i j : Nat) (z : α) :
    lastWrite R C [] i j z = z := rfl

theorem lastWrite_cons {α : Type} (R C : Nat) (w : MWrite α) (ws : List (MWrite α))
    (i j : Nat) (z : α) :
    lastWrite R C (w :: ws) i j z =
      lastWrite R C ws i j
        (if npIdx R w.row = some i ∧ npIdx C w.col = some j then w.val else z) := rfl

theorem runWrites_cell {α : Type} {z : α} {R C : Nat} {ws : List (MWrite α)}
    {m m2 : List (List α)} (hm : Rect R C m)
    (h : runWrites R C ws m = .ok m2) (i j : Nat) (hi : i < R) (hj : j < C) :
    cell z m2 i j = lastWrite R C ws i j (cell z m i j) := by
  induction ws generalizing m with
  | nil => rw [runWrites_nil] at h; cases h; rw [lastWrite_nil]
  | cons w ws ih =>
      cases hs : npSet R C w.erow w.ecol m w.row w.col w.val with
      | error e => rw [runWrites_cons_err hs] at h; cases h
      | ok m1 =>
          rw [runWrites_cons_ok hs] at h
          rcases hri2 : npIdx R w.row with _ | i2
          · rw [npSet_err_row hri2] at hs; cases hs
          · rcases hcj : npIdx C w.col with _ | j2
            · rw [npSet_err_col hri2 hcj] at hs; cases hs
            · rw [npSet_eq_ok hri2 hcj] at hs
              cases hs
              rw [lastWrite_cons,
                ih (rect_set_cell hm (npIdx_lt hri2) w.val) h,
                cell_set hm (npIdx_lt hri2) (npIdx_lt hcj) w.val i j hi hj]
              congr 1
              by_cases hc : i2 = i ∧ j2 = j
              · rw [if_pos hc, if_pos (by rw [hri2, hcj, hc.1, hc.2]; exact ⟨rfl, rfl⟩)]
              · rw [if_neg hc, if_neg ?_]
                intro hc2
                rw [hri2] at hc2
                rw [hcj] at hc2
                exact hc ⟨Option.some_injective _ hc2.1, Option.some_injective _ hc2.2⟩

theorem runWrites_entries {α : Type} {P : α → Prop} {R C : Nat}
    {ws : List (MWrite α)} {m m2 : List (List α)} (hm : Rect R C m)
    (hwp : ∀ w ∈ ws, P w.val) (hmp : ∀ r ∈ m, ∀ x ∈ r, P x)
    (h : runWrites R C ws m = .ok m2) : ∀ r ∈ m2, ∀ x ∈ r, P x := by
  induction ws generalizing m with
  | nil => rw [runWrites_nil] at h; cases h; exact hmp
  | cons w ws ih =>
      cases hs : npSet R C w.erow w.ecol m w.row w.col w.val with
      | error e => rw [runWrites_cons_err hs] at h; cases h
      | ok m1 =>
          rw [runWrites_cons_ok hs] at h
          rcases hri2 : npIdx R w.row with _ | i2
          · rw [npSet_err_row hri2] at hs; cases hs
          · rcases hcj : npIdx C w.col with _ | j2
            · rw [npSet_err_col hri2 hcj] at hs; cases hs
            · rw [npSet_eq_ok hri2 hcj] at hs
              cases hs
              refine ih (rect_set_cell hm (npIdx_lt hri2) w.val)
                (fun w2 hw2 => hwp w2 (List.mem_cons_of_mem w hw2)) ?_ h
              intro r hr x hx
              rcases List.mem_or_eq_of_mem_set hr with h2 | h2
              · exact hmp r h2 x hx
              · subst h2
                rcases List.mem_or_eq_of_mem_set hx with h3 | h3
                · have hi2m : i2 < m.length := by rw [hm.1]; exact npIdx_lt hri2
                  rw [List.getD_eq_getElem _ _ hi2m] at h3
                  exact hmp _ (List.getElem_mem hi2m) x h3
                · subst h3
                  exact hwp w (List.mem_cons_self w ws)

/-! ## Lemmas: the fill loops as write sequences -/

theorem runWrites_append {α : Type} (R C : Nat) (a b : List (MWrite α))
    (m : List (List α)) :
    runWrites R C (a ++ b) m = (do
      let m1 ← runWrites R C a m
      runWrites R C b m1) := by
  unfold runWrites
  exact List.foldlM_append _ _ _ _

theorem fillTopDoc_inner (R Z : Nat) (d : Int) (tops : List (Int × ℚ))
    (m : List (List ℚ)) :
    tops.foldlM
      (fun td2 tp => npSet R Z (.docIndexOutOfRange d)
        (.topicIndexOutOfRange tp.1) td2 d tp.1 tp.2) m
    = runWrites R Z
        (tops.map fun tp =>
          ⟨d, tp.1, .docIndexOutOfRange d, .topicIndexOutOfRange tp.1, tp.2⟩) m := by
  induction tops generalizing m with
  | nil => rfl
  | cons tp tops ih =>
      rw [List.foldlM_cons, List.map_cons]
      unfold runWrites
      rw [List.foldlM_cons]
      cases h : npSet R Z (.docIndexOutOfRange d) (.topicIndexOutOfRange tp.1) m d tp.1 tp.2 with
      | error e => rfl
      | ok m1 => exact ih m1

theorem fillTopDoc_aux (R Z : Nat) (docs : List (Int × String × List (Int × ℚ)))
    (m0 : List (List ℚ)) :
    docs.foldlM
      (fun td dd =>
        dd.2.2.foldlM
          (fun td2 tp =>
            npSet R Z (.docIndexOutOfRange dd.1) (.topicIndexOutOfRange tp.1)
              td2 dd.1 tp.1 tp.2)
          td)
      m0
    = runWrites R Z
        (docs.flatMap fun dd =>
          dd.2.2.map fun tp =>
            ⟨dd.1, tp.1, .docIndexOutOfRange dd.1, .topicIndexOutOfRange tp.1, tp.2⟩)
        m0 := by
  induction docs generalizing m0 with
  | nil => rfl
  | cons dd docs ih =>
      rw [List.foldlM_cons, List.flatMap_cons, runWrites_append,
        fillTopDoc_inner R Z dd.1 dd.2.2 m0]
      cases h : runWrites R Z
          (dd.2.2.map fun tp =>
            ⟨dd.1, tp.1, .docIndexOutOfRange dd.1, .topicIndexOutOfRange tp.1, tp.2⟩)
          m0 with
      | error e => rfl
      | ok m1 => exact ih m1

theorem fillTopDoc_eq (docs : List (Int × String × List (Int × ℚ))) (Z : Nat) :
    fillTopDoc docs Z
      = runWrites docs.length Z (tdWrites docs) (npZeros docs.length Z 0) :=
  fillTopDoc_aux docs.length Z docs (npZeros docs.length Z 0)

theorem fillWordTop_inner (Z C : Nat) (w : Int) (tc : List (Int × ℚ))
    (m : List (List PFloat)) :
    tc.foldlM
      (fun wt2 tp => npSet Z C (.topicIndexOutOfRange tp.1)
        (.wordIndexOutOfRange w) wt2 tp.1 w (.val tp.2)) m
    = runWrites Z C
        (tc.map fun tp =>
          ⟨tp.1, w, .topicIndexOutOfRange tp.1, .wordIndexOutOfRange w, .val tp.2⟩) m := by
  induction tc generalizing m with
  | nil => rfl
  | cons tp tc ih =>
      rw [List.foldlM_cons, List.map_cons]
      unfold runWrites
      rw [List.foldlM_cons]
      cases h : npSet Z C (.topicIndexOutOfRange tp.1) (.wordIndexOutOfRange w) m tp.1 w (.val tp.2) with
      | error e => rfl
      | ok m1 => exact ih m1

theorem fillWordTop_aux (Z C : Nat) (ws : List (Int × String × List (Int × ℚ)))
    (m0 : List (List PFloat)) :
    ws.foldlM
      (fun wt wd =>
        wd.2.2.foldlM
          (fun wt2 tp =>
            npSet Z C (.topicIndexOutOfRange tp.1) (.wordIndexOutOfRange wd.1)
              wt2 tp.1 wd.1 (.val tp.2))
          wt)
      m0
    = runWrites Z C
        (ws.flatMap fun wd =>
          wd.2.2.map fun tp =>
            ⟨tp.1, wd.1, .topicIndexOutOfRange tp.1, .wordIndexOutOfRange wd.1, .val tp.2⟩)
        m0 := by
  induction ws generalizing m0 with
  | nil => rfl
  | cons wd ws ih =>
      rw [List.foldlM_cons, List.flatMap_cons, runWrites_append,
        fillWordTop_inner Z C wd.1 wd.2.2 m0]
      cases h : runWrites Z C
          (wd.2.2.map fun tp =>
            ⟨tp.1, wd.1, .topicIndexOutOfRange tp.1, .wordIndexOutOfRange wd.1, .val tp.2⟩)
          m0 with
      | error e => rfl
      | ok m1 => exact ih m1

theorem fillWordTop_eq (ws : List (Int × String × List (Int × ℚ))) (Z : Nat) :
    fillWordTop ws Z
      = runWrites Z ws.length (wtWrites ws) (npZeros Z ws.length (PFloat.val 0)) :=
  fillWordTop_aux Z ws.length ws (npZeros Z ws.length (PFloat.val 0))

/-! ## Lemmas: stage plumbing in `load` -/

theorem handle_top_doc_of_ok {rows : List (List String)} {Z : Nat}
    {docs : List (Int × String × List (Int × ℚ))}
    (h : buildDocuments rows = .ok docs) :
    handle_top_doc rows Z = fillTopDoc docs Z := by
  unfold handle_top_doc
  rw [h]
  rfl

theorem handle_word_top_of_ok {rows : List (List String)} {Z : Nat}
    {ws : List (Int × String × List (Int × ℚ))} {wt : List (List PFloat)}
    (h : buildWords rows = .ok ws) (h2 : fillWordTop ws Z = .ok wt) :
    handle_word_top rows Z = .ok (normalizeWt Z wt) := by
  unfold handle_word_top
  rw [h]
  show fillWordTop ws Z >>= _ = _
  rw [h2]
  rfl

theorem handle_word_top_err_build {rows : List (List String)} {Z : Nat}
    {e : LoadErr} (h : buildWords rows = .error e) :
    handle_word_top rows Z = .error e := by
  unfold handle_word_top
  rw [h]
  rfl

theorem load_err_td {a b c : List (List String)} {Z : Nat}
    {md : Option (List (List String))} {e : LoadErr}
    (h : handle_top_doc a Z = .error e) : load a b c Z md = .error e := by
  unfold load
  rw [h]
  rfl

theorem load_ok_parts {a b c : List (List String)} {Z : Nat}
    {md : Option (List (List String))} {model : LDAModel}
    (h : load a b c Z md = .ok model) :
    handle_top_doc a Z = .ok model.td ∧ handle_word_top b Z = .ok model.wt ∧
      handle_topic_keys c = .ok model.tk := by
  cases h1 : handle_top_doc a Z with
  | error e => rw [load_err_td h1] at h; cases h
  | ok td =>
      cases h2 : handle_word_top b Z with
      | error e =>
          have hl : load a b c Z md = .error e := by
            unfold load
            rw [h1, h2]
            rfl
          rw [hl] at h
          cases h
      | ok wt =>
          cases h3 : handle_topic_keys c with
          | error e =>
              have hl : load a b c Z md = .error e := by
                unfold load
                rw [h1, h2, h3]
                rfl
              rw [hl] at h
              cases h
          | ok tk =>
              cases md with
              | none =>
                  have hl : load a b c Z none = .ok ⟨td, wt, tk, none⟩ := by
                    unfold load
                    rw [h1, h2, h3]
                    rfl
                  rw [hl] at h
                  cases h
                  exact ⟨rfl, rfl, rfl⟩
              | some mrows =>
                  cases h4 : handle_metadata mrows with
                  | error e =>
                      have hl : load a b c Z (some mrows) = .error e := by
                        unfold load
                        rw [h1, h2, h3]
                        show Except.map some (handle_metadata mrows) >>=
                            (fun md2 => pure (LDAModel.mk td wt tk md2)) = Except.error e
                        rw [h4]
                        rfl
                      rw [hl] at h
                      cases h
                  | ok mm =>
                      have hl : load a b c Z (some mrows) = .ok ⟨td, wt, tk, some mm⟩ := by
                        unfold load
                        rw [h1, h2, h3]
                        show Except.map some (handle_metadata mrows) >>=
                            (fun md2 => pure (LDAModel.mk td wt tk md2))
                          = Except.ok (LDAModel.mk td wt tk (some mm))
                        rw [h4]
                        rfl
                      rw [hl] at h
                      cases h
                      exact ⟨rfl, rfl, rfl⟩

theorem load_of_parts {a b c : List (List String)} {Z : Nat}
    {td : List (List ℚ)} {wt : List (List PFloat)}
    {tk : List (Int × ℚ × List String)}
    (h1 : handle_top_doc a Z = .ok td) (h2 : handle_word_top b Z = .ok wt)
    (h3 : handle_topic_keys c = .ok tk) :
    load a b c Z none = .ok ⟨td, wt, tk, none⟩ := by
  unfold load
  rw [h1]
  show handle_word_top b Z >>= _ = _
  rw [h2]
  show handle_topic_keys c >>= _ = _
  rw [h3]
  rfl


/-! ## Lemmas: dict semantics -/

theorem lastVal_cons {V : Type} (p : Int × V) (ps : List (Int × V)) (k : Int) :
    lastVal (p :: ps) k
      = (lastVal ps k).or (if p.1 = k then some p.2 else none) := by
  unfold lastVal
  rw [List.reverse_cons, List.find?_append]
  cases hf : ps.reverse.find? (fun q => decide (q.1 = k)) with
  | some q => simp [Option.or]
  | none =>
      by_cases hp : p.1 = k
      · simp [List.find?_cons, hp]
      · simp [List.find?_cons, hp]

theorem dictLookup_map_replace {V : Type} (d : List (Int × V)) (k k2 : Int) (v : V)
    (h : k2 ≠ k) :
    dictLookup (d.map fun p => if p.1 = k then (k, v) else p) k2 = dictLookup d k2 := by
  induction d with
  | nil => rfl
  | cons p d ih =>
      rw [List.map_cons]
      by_cases hp : p.1 = k
      · unfold dictLookup
        rw [if_pos hp, List.find?_cons, List.find?_cons]
        have h1 : (decide ((k, v).1 = k2)) = false := by
          rw [decide_eq_false_iff_not]
          exact fun hh => h hh.symm
        have h2 : (decide (p.1 = k2)) = false := by
          rw [decide_eq_false_iff_not, hp]
          exact fun hh => h hh.symm
        rw [h1, h2]
        exact ih
      · unfold dictLookup
        rw [if_neg hp, List.find?_cons, List.find?_cons]
        cases hd : decide (p.1 = k2) with
        | true => rfl
        | false => exact ih

theorem dictLookup_map_replace_hit {V : Type} (d : List (Int × V)) (k : Int) (v : V)
    (h : d.any (fun p => p.1 = k)) :
    dictLookup (d.map fun p => if p.1 = k then (k, v) else p) k = some v := by
  induction d with
  | nil => cases h
  | cons p d ih =>
      rw [List.map_cons]
      by_cases hp : p.1 = k
      · unfold dictLookup
        rw [if_pos hp, List.find?_cons]
        simp
      · unfold dictLookup
        rw [if_neg hp, List.find?_cons]
        have h2 : (decide (p.1 = k)) = false := by simp [hp]
        rw [h2]
        have h3 : d.any (fun p => p.1 = k) := by
          rw [List.any_cons] at h
          simp [hp] at h
          simpa using h
        exact ih h3

theorem dictLookup_insert {V : Type} (d : List (Int × V)) (k k2 : Int) (v : V) :
    dictLookup (dictInsert d k v) k2
      = if k2 = k then some v else dictLookup d k2 := by
  unfold dictInsert
  by_cases hmem : d.any (fun p => p.1 = k)
  · rw [if_pos hmem]
    by_cases hk : k2 = k
    · subst hk
      rw [if_pos rfl]
      exact dictLookup_map_replace_hit d k2 v hmem
    · rw [if_neg hk]
      exact dictLookup_map_replace d k k2 v hk
  · rw [if_neg hmem]
    unfold dictLookup
    rw [List.find?_append]
    by_cases hk : k2 = k
    · subst hk
      have hnone : d.find? (fun p => decide (p.1 = k2)) = none := by
        rw [List.find?_eq_none]
        intro p hp
        simp
        intro hpk
        rw [List.any_eq_true] at hmem
        exact absurd ⟨p, hp, by simp [hpk]⟩ hmem
      rw [hnone, if_pos rfl]
      simp [List.find?_cons, Option.or]
    · rw [if_neg hk]
      have hone : ([(k, v)].find? (fun p => decide (p.1 = k2))) = none := by
        have hd2 : (decide ((k, v).1 = k2)) = false := by
          rw [decide_eq_false_iff_not]
          exact fun hh => hk hh.symm
        simp only [List.find?_cons, hd2]
        rfl
      rw [hone]
      cases hd : d.find? (fun p => decide (p.1 = k2)) <;> simp [Option.or]

theorem dictLookup_mem {V : Type} {d : List (Int × V)} {k : Int} {v : V}
    (h : dictLookup d k = some v) : (k, v) ∈ d := by
  unfold dictLookup at h
  cases hf : d.find? (fun p => decide (p.1 = k)) with
  | none => rw [hf] at h; cases h
  | some p =>
      rw [hf] at h
      have hp := List.find?_some hf
      have hmem := List.mem_of_find?_eq_some hf
      rw [decide_eq_true_eq] at hp
      injection h with h2
      have : p = (k, v) := by
        cases p
        simp only [Prod.mk.injEq]
        exact ⟨hp, h2⟩
      rw [this] at hmem
      exact hmem

theorem buildTable_aux {V : Type} (parse : List String → Option (Int × V)) :
    ∀ (rows : List (List String)) (d0 d : List (Int × V)),
    rows.foldlM
      (fun acc line =>
        match parse line with
        | none => Except.error (LoadErr.malformedRow line)
        | some (k, v) => Except.ok (dictInsert acc k v)) d0 = .ok d →
    ∀ k, dictLookup d k = (lastVal (rows.filterMap parse) k).or (dictLookup d0 k) := by
  intro rows
  induction rows with
  | nil =>
      intro d0 d h k
      rw [List.foldlM_nil] at h
      injection h with h2
      subst h2
      rw [List.filterMap_nil]
      rfl
  | cons line rows ih =>
      intro d0 d h k
      rw [List.foldlM_cons] at h
      cases hp : parse line with
      | none => rw [hp] at h; cases h
      | some kv =>
          rw [hp] at h
          rcases kv with ⟨k1, v1⟩
          have h2 : rows.foldlM
              (fun acc line =>
                match parse line with
                | none => Except.error (LoadErr.malformedRow line)
                | some (k, v) => Except.ok (dictInsert acc k v))
              (dictInsert d0 k1 v1) = .ok d := h
          rw [List.filterMap_cons, hp, ih (dictInsert d0 k1 v1) d h2 k, lastVal_cons,
            dictLookup_insert]
          cases hl : lastVal (rows.filterMap parse) k with
          | some v2 => rfl
          | none =>
              by_cases hk : k = k1
              · subst hk
                rw [if_pos rfl, if_pos rfl]
                rfl
              · rw [if_neg hk, if_neg (fun hh => hk hh.symm)]
                rfl

theorem buildTable_lookup {V : Type} {parse : List String → Option (Int × V)}
    {rows : List (List String)} {d : List (Int × V)}
    (h : buildTable parse rows = .ok d) (k : Int) :
    dictLookup d k = lastVal (rows.filterMap parse) k := by
  have h2 := buildTable_aux parse rows [] d h k
  rw [h2]
  cases lastVal (rows.filterMap parse) k <;> rfl

theorem dictInsert_nodupKeys {V : Type} {d : List (Int × V)} (k : Int) (v : V)
    (h : (d.map Prod.fst).Nodup) : ((dictInsert d k v).map Prod.fst).Nodup := by
  unfold dictInsert
  by_cases hmem : d.any (fun p => p.1 = k)
  · rw [if_pos hmem, List.map_map]
    have heq : (Prod.fst ∘ fun p : Int × V => if p.1 = k then (k, v) else p)
        = Prod.fst := by
      funext p
      by_cases hp : p.1 = k
      · simp [hp]
      · simp [hp]
    rw [heq]
    exact h
  · rw [if_neg hmem, List.map_append]
    rw [List.nodup_append]
    refine ⟨h, by simp, ?_⟩
    intro x hx hx2
    simp at hx2
    subst hx2
    rw [List.any_eq_true] at hmem
    rcases List.mem_map.mp hx with ⟨p, hp, hpk⟩
    exact hmem ⟨p, hp, by simp [hpk]⟩

theorem buildTable_nodup_aux {V : Type} (parse : List String → Option (Int × V)) :
    ∀ (rows : List (List String)) (d0 d : List (Int × V)),
    (d0.map Prod.fst).Nodup →
    rows.foldlM
      (fun acc line =>
        match parse line with
        | none => Except.error (LoadErr.malformedRow line)
        | some (k, v) => Except.ok (dictInsert acc k v)) d0 = .ok d →
    (d.map Prod.fst).Nodup := by
  intro rows
  induction rows with
  | nil =>
      intro d0 d h0 h
      rw [List.foldlM_nil] at h
      injection h with h2
      subst h2
      exact h0
  | cons line rows ih =>
      intro d0 d h0 h
      rw [List.foldlM_cons] at h
      cases hp : parse line with
      | none => rw [hp] at h; cases h
      | some kv =>
          rw [hp] at h
          rcases kv with ⟨k1, v1⟩
          exact ih (dictInsert d0 k1 v1) d (dictInsert_nodupKeys k1 v1 h0) h

theorem buildTable_nodupKeys {V : Type} {parse : List String → Option (Int × V)}
    {rows : List (List String)} {d : List (Int × V)}
    (h : buildTable parse rows = .ok d) : (d.map Prod.fst).Nodup :=
  buildTable_nodup_aux parse rows [] d (by simp) h

theorem buildTable_err_aux {V : Type} (parse : List String → Option (Int × V)) :
    ∀ (pre : List (List String)) (line : List String) (post : List (List String))
      (d0 : List (Int × V)),
    (∀ l ∈ pre, (parse l).isSome) → parse line = none →
    (pre ++ line :: post).foldlM
      (fun acc l =>
        match parse l with
        | none => Except.error (LoadErr.malformedRow l)
        | some (k, v) => Except.ok (dictInsert acc k v)) d0
      = .error (.malformedRow line) := by
  intro pre
  induction pre with
  | nil =>
      intro line post d0 hpre hline
      rw [List.nil_append, List.foldlM_cons, hline]
      rfl
  | cons l pre ih =>
      intro line post d0 hpre hline
      rw [List.cons_append, List.foldlM_cons]
      cases hp : parse l with
      | none =>
          have := hpre l (List.mem_cons_self l pre)
          rw [hp] at this
          cases this
      | some kv =>
          rcases kv with ⟨k1, v1⟩
          have h2 := ih line post (dictInsert d0 k1 v1)
            (fun l2 hl2 => hpre l2 (List.mem_cons_of_mem l hl2)) hline
          exact h2

theorem buildTable_err_at {V : Type} {parse : List String → Option (Int × V)}
    {pre : List (List String)} {line : List String} {post : List (List String)}
    (hpre : ∀ l ∈ pre, (parse l).isSome) (hline : parse line = none) :
    buildTable parse (pre ++ line :: post) = .error (.malformedRow line) :=
  buildTable_err_aux parse pre line post [] hpre hline

/-! ## Lemmas: the topic-document pair loop -/

theorem takePairs_eq : ∀ (t : List String),
    takePairs t
      = (List.range (t.length / 2)).map
          (fun k => (t.getD (2 * k) "", t.getD (2 * k + 1) ""))
  | [] => by simp [takePairs]
  | [a] => by simp [takePairs]
  | a :: b :: rest => by
      have ih := takePairs_eq rest
      show (a, b) :: takePairs rest = _
      rw [ih]
      have hlen : (a :: b :: rest).length / 2 = rest.length / 2 + 1 := by
        simp only [List.length_cons]
        omega
      rw [hlen, List.range_succ_eq_map, List.map_cons, List.map_map]
      congr 1

theorem takePairs_length (t : List String) :
    (takePairs t).length = t.length / 2 := by
  rw [takePairs_eq]
  simp

/-! ## Lemmas: the normalisation loop -/

theorem normalizeWt_aux : ∀ (n : Nat) (m : List (List PFloat)),
    (List.range n).foldl (fun acc t => acc.set t (normalizeRow (acc.getD t []))) m
      = (m.take n).map normalizeRow ++ m.drop n := by
  intro n
  induction n with
  | zero => intro m; simp
  | succ n ih =>
      intro m
      rw [List.range_succ, List.foldl_append, ih m]
      simp only [List.foldl_cons, List.foldl_nil]
      rcases lt_or_ge n m.length with h | h
      · have hmaplen : ((m.take n).map normalizeRow).length = n := by
          simp
          omega
        have hgetD : ((m.take n).map normalizeRow ++ m.drop n).getD n [] = m[n] := by
          rw [List.getD_eq_getElem _ _ (by simp; omega),
            List.getElem_append_right (by rw [hmaplen])]
          rw [List.getElem_drop]
          congr 1
          omega
        rw [hgetD, List.set_append_right _ _ (by rw [hmaplen]), hmaplen, Nat.sub_self]
        rw [List.drop_eq_getElem_cons h, List.set_cons_zero]
        simp only [List.map_take]
        rw [List.take_succ, List.getElem?_map, List.getElem?_eq_getElem h]
        simp [List.append_assoc]
      · rw [List.take_of_length_le h, List.drop_eq_nil_of_le h,
          List.take_of_length_le (by omega), List.drop_eq_nil_of_le (by omega),
          List.append_nil,
          List.set_eq_of_length_le (by simp; omega)]

theorem normalizeWt_eq_map {Z : Nat} {m : List (List PFloat)} (h : m.length = Z) :
    normalizeWt Z m = m.map normalizeRow := by
  unfold normalizeWt
  rw [normalizeWt_aux Z m, ← h, List.take_length, List.drop_length, List.append_nil]

/-! ## Lemmas: PFloat rows -/

theorem foldl_pfAdd_val (qs : List ℚ) :
    ∀ a : ℚ, (qs.map PFloat.val).foldl pfAdd (.val a) = .val (qs.foldl (· + ·) a) := by
  induction qs with
  | nil => intro a; rfl
  | cons q qs ih =>
      intro a
      rw [List.map_cons, List.foldl_cons, List.foldl_cons]
      exact ih (a + q)

theorem rowSum_map_val (qs : List ℚ) : rowSum (qs.map PFloat.val) = .val qs.sum := by
  unfold rowSum
  rw [foldl_pfAdd_val, List.sum_eq_foldl]

theorem all_val_exists : ∀ {r : List PFloat},
    (∀ x ∈ r, ∃ q : ℚ, x = .val q) → ∃ qs : List ℚ, r = qs.map PFloat.val := by
  intro r
  induction r with
  | nil => intro _; exact ⟨[], rfl⟩
  | cons x r ih =>
      intro h
      rcases h x (List.mem_cons_self x r) with ⟨q, hq⟩
      rcases ih (fun y hy => h y (List.mem_cons_of_mem x hy)) with ⟨qs, hqs⟩
      exact ⟨q :: qs, by rw [List.map_cons, ← hq, ← hqs]⟩

theorem sum_map_div (qs : List ℚ) (s : ℚ) :
    (qs.map (fun x => x / s)).sum = qs.sum / s := by
  induction qs with
  | nil => simp
  | cons q qs ih => simp [ih, add_div]

theorem normalizeRow_map_val {qs : List ℚ} (h : qs.sum ≠ 0) :
    normalizeRow (qs.map PFloat.val)
      = (qs.map (fun x => x / qs.sum)).map PFloat.val := by
  unfold normalizeRow
  rw [rowSum_map_val, List.map_map, List.map_map]
  apply List.map_congr_left
  intro x _
  simp only [Function.comp_apply, pfDiv]
  rw [if_neg h]

theorem rowSum_normalizeRow_val {qs : List ℚ} (h : qs.sum ≠ 0) :
    rowSum (normalizeRow (qs.map PFloat.val)) = .val 1 := by
  rw [normalizeRow_map_val h, rowSum_map_val, sum_map_div, div_self h]

theorem normalizeRow_of_sum_one {r : List PFloat} (h : rowSum r = .val 1) :
    normalizeRow r = r := by
  unfold normalizeRow
  rw [h]
  conv_rhs => rw [← List.map_id r]
  apply List.map_congr_left
  intro x _
  cases x with
  | nan => rfl
  | pinf => simp [pfDiv]
  | ninf => simp [pfDiv]
  | val a => simp [pfDiv]

theorem foldl_pfAdd_zero_row : ∀ (r : List PFloat), (∀ x ∈ r, x = .val 0) →
    ∀ a : ℚ, r.foldl pfAdd (.val a) = .val a := by
  intro r
  induction r with
  | nil => intro _ a; rfl
  | cons x r ih =>
      intro h a
      rw [List.foldl_cons, h x (List.mem_cons_self x r)]
      show r.foldl pfAdd (.val (a + 0)) = .val a
      rw [add_zero]
      exact ih (fun y hy => h y (List.mem_cons_of_mem x hy)) a

theorem rowSum_zero_row {r : List PFloat} (h : ∀ x ∈ r, x = .val 0) :
    rowSum r = .val 0 :=
  foldl_pfAdd_zero_row r h 0

theorem normalizeRow_zero_row {r : List PFloat} (h : ∀ x ∈ r, x = .val 0) :
    ∀ y ∈ normalizeRow r, y = .nan := by
  intro y hy
  unfold normalizeRow at hy
  rw [rowSum_zero_row h] at hy
  rcases List.mem_map.mp hy with ⟨x, hx, hxy⟩
  rw [h x hx] at hxy
  rw [← hxy]
  simp [pfDiv]

/-! ## Lemmas: fill stages, packaged -/

theorem tdWrites_mem {docs : List (Int × String × List (Int × ℚ))}
    {dd : Int × String × List (Int × ℚ)} (hd : dd ∈ docs)
    {tp : Int × ℚ} (htp : tp ∈ dd.2.2) :
    (⟨dd.1, tp.1, .docIndexOutOfRange dd.1, .topicIndexOutOfRange tp.1, tp.2⟩ : MWrite ℚ)
      ∈ tdWrites docs := by
  unfold tdWrites
  exact List.mem_flatMap.mpr ⟨dd, hd, List.mem_map_of_mem _ htp⟩

theorem wtWrites_mem {ws : List (Int × String × List (Int × ℚ))}
    {wd : Int × String × List (Int × ℚ)} (hw : wd ∈ ws)
    {tp : Int × ℚ} (htp : tp ∈ wd.2.2) :
    (⟨tp.1, wd.1, .topicIndexOutOfRange tp.1, .wordIndexOutOfRange wd.1, .val tp.2⟩ : MWrite PFloat)
      ∈ wtWrites ws := by
  unfold wtWrites
  exact List.mem_flatMap.mpr ⟨wd, hw, List.mem_map_of_mem _ htp⟩

theorem lastWrite_eq_of_no_match {α : Type} {R C : Nat} {ws : List (MWrite α)}
    {i j : Nat} (z : α)
    (h : ∀ w ∈ ws, ¬(npIdx R w.row = some i ∧ npIdx C w.col = some j)) :
    lastWrite R C ws i j z = z := by
  induction ws generalizing z with
  | nil => rfl
  | cons w ws ih =>
      rw [lastWrite_cons, if_neg (h w (List.mem_cons_self w ws))]
      exact ih z (fun w2 hw2 => h w2 (List.mem_cons_of_mem w hw2))

theorem fillTopDoc_rect {docs : List (Int × String × List (Int × ℚ))} {Z : Nat}
    {td : List (List ℚ)} (h : fillTopDoc docs Z = .ok td) :
    Rect docs.length Z td := by
  rw [fillTopDoc_eq] at h
  exact runWrites_rect (rect_npZeros _ _ _) h

theorem fillTopDoc_cell {docs : List (Int × String × List (Int × ℚ))} {Z : Nat}
    {td : List (List ℚ)} (h : fillTopDoc docs Z = .ok td) (i j : Nat)
    (hi : i < docs.length) (hj : j < Z) :
    cell 0 td i j = lastWrite docs.length Z (tdWrites docs) i j 0 := by
  rw [fillTopDoc_eq] at h
  rw [runWrites_cell (rect_npZeros _ _ _) h i j hi hj, cell_npZeros]

theorem fillTopDoc_inRange {docs : List (Int × String × List (Int × ℚ))} {Z : Nat}
    {td : List (List ℚ)} (h : fillTopDoc docs Z = .ok td) :
    ∀ w ∈ tdWrites docs, (npIdx docs.length w.row).isSome ∧ (npIdx Z w.col).isSome := by
  rw [fillTopDoc_eq] at h
  exact runWrites_ok_inRange h

theorem fillTopDoc_err_of_bad {docs : List (Int × String × List (Int × ℚ))} {Z : Nat}
    {w : MWrite ℚ} (hw : w ∈ tdWrites docs)
    (hbad : npIdx docs.length w.row = none ∨ npIdx Z w.col = none) :
    ∃ e, fillTopDoc docs Z = .error e := by
  rw [fillTopDoc_eq]
  exact runWrites_err_of_bad hw hbad _

theorem fillWordTop_rect {ws : List (Int × String × List (Int × ℚ))} {Z : Nat}
    {wt : List (List PFloat)} (h : fillWordTop ws Z = .ok wt) :
    Rect Z ws.length wt := by
  rw [fillWordTop_eq] at h
  exact runWrites_rect (rect_npZeros _ _ _) h

theorem fillWordTop_cell {ws : List (Int × String × List (Int × ℚ))} {Z : Nat}
    {wt : List (List PFloat)} (h : fillWordTop ws Z = .ok wt) (i j : Nat)
    (hi : i < Z) (hj : j < ws.length) :
    cell (.val 0) wt i j = lastWrite Z ws.length (wtWrites ws) i j (.val 0) := by
  rw [fillWordTop_eq] at h
  rw [runWrites_cell (rect_npZeros _ _ _) h i j hi hj, cell_npZeros]

theorem fillWordTop_entries_val {ws : List (Int × String × List (Int × ℚ))} {Z : Nat}
    {wt : List (List PFloat)} (h : fillWordTop ws Z = .ok wt) :
    ∀ r ∈ wt, ∀ x ∈ r, ∃ q : ℚ, x = .val q := by
  rw [fillWordTop_eq] at h
  refine runWrites_entries (rect_npZeros _ _ _) ?_ ?_ h
  · intro w hw
    unfold wtWrites at hw
    rcases List.mem_flatMap.mp hw with ⟨wd, _, hmap⟩
    rcases List.mem_map.mp hmap with ⟨tp, _, hweq⟩
    rw [← hweq]
    exact ⟨tp.2, rfl⟩
  · intro r hr x hx
    rw [List.eq_of_mem_replicate hr] at hx
    rw [List.eq_of_mem_replicate hx]
    exact ⟨0, rfl⟩

theorem row_all_of_cells {α : Type} {z v : α} {R C : Nat} {m : List (List α)}
    (hm : Rect R C m) {i : Nat} (hi : i < R)
    (hc : ∀ j, j < C → cell z m i j = v) : ∀ x ∈ m.getD i [], x = v := by
  intro x hx
  have him : i < m.length := by rw [hm.1]; exact hi
  have hrow : (m.getD i []).length = C := by
    rw [List.getD_eq_getElem _ _ him]
    exact hm.2 _ (List.getElem_mem him)
  rcases List.mem_iff_getElem.mp hx with ⟨j, hj, hjx⟩
  have hjC : j < C := by rw [← hrow]; exact hj
  have := hc j hjC
  rw [cell] at this
  rw [List.getD_eq_getElem _ _ hj] at this
  rw [← hjx]
  exact this

theorem getD_map_lt {α β : Type} (f : α → β) (l : List α) (dA : α) (dB : β)
    {n : Nat} (h : n < l.length) : (l.map f).getD n dB = f (l.getD n dA) := by
  rw [List.getD_eq_getElem _ _ (by simpa using h), List.getElem_map,
    List.getD_eq_getElem _ _ h]

theorem dictLookup_of_mem_nodup {V : Type} {d : List (Int × V)}
    (hnd : (d.map Prod.fst).Nodup) {p : Int × V} (hp : p ∈ d) :
    dictLookup d p.1 = some p.2 := by
  induction d with
  | nil => cases hp
  | cons q d ih =>
      rw [List.map_cons, List.nodup_cons] at hnd
      rcases List.mem_cons.mp hp with rfl | hmem
      · unfold dictLookup
        rw [List.find?_cons]
        simp
      · unfold dictLookup
        rw [List.find?_cons]
        have hne : (decide (q.1 = p.1)) = false := by
          rw [decide_eq_false_iff_not]
          intro hh
          exact hnd.1 (hh ▸ List.mem_map_of_mem Prod.fst hmem)
        rw [hne]
        exact ih hnd.2 hmem

theorem getLast?_cons_or {α : Type} (a : α) (l : List α) :
    (a :: l).getLast? = l.getLast?.or (some a) := by
  cases l with
  | nil => rfl
  | cons b l =>
      rw [List.getLast?_cons_cons]
      cases hl : (b :: l).getLast? with
      | none =>
          exact absurd hl (by simp [List.getLast?_isSome])
      | some y => rfl

theorem find?_reverse_eq_getLast?_filter {α : Type} (p : α → Bool) (l : List α) :
    l.reverse.find? p = (l.filter p).getLast? := by
  induction l with
  | nil => rfl
  | cons a l ih =>
      rw [List.reverse_cons, List.find?_append, ih, List.filter_cons]
      cases hp : p a with
      | true =>
          rw [if_pos rfl, getLast?_cons_or]
          congr 1
          simp [List.find?_cons, hp]
      | false =>
          rw [if_neg (by simp)]
          have : [a].find? p = none := by simp [List.find?_cons, hp]
          rw [this, Option.or_none]

theorem lastVal_eq_filter {V : Type} (ps : List (Int × V)) (k : Int) :
    lastVal ps k = ((ps.filter (fun p => p.1 = k)).getLast?).map (·.2) := by
  unfold lastVal
  rw [find?_reverse_eq_getLast?_filter]

theorem filter_key_eq_single {V : Type} {d : List (Int × V)}
    (hnd : (d.map Prod.fst).Nodup) {T : Int} {v : V} (hmem : (T, v) ∈ d) :
    d.filter (fun r => r.1 = T) = [(T, v)] := by
  induction d with
  | nil => cases hmem
  | cons q d ih =>
      rw [List.map_cons, List.nodup_cons] at hnd
      rw [List.filter_cons]
      rcases List.mem_cons.mp hmem with rfl | hmem2
      · rw [if_pos (by simp)]
        have hnil : d.filter (fun r => r.1 = T) = [] := by
          rw [List.filter_eq_nil_iff]
          intro p hp
          simp only [decide_eq_true_eq]
          intro hpk
          have hin : p.1 ∈ d.map Prod.fst := List.mem_map_of_mem Prod.fst hp
          rw [hpk] at hin
          exact hnd.1 hin
        rw [hnil]
      · have hqT : q.1 ≠ T := by
          intro hh
          have : (T, v).1 ∈ d.map Prod.fst := List.mem_map_of_mem Prod.fst hmem2
          exact hnd.1 (by rw [hh]; exact this)
        rw [if_neg (by simp [hqT])]
        exact ih hnd.2 hmem2

theorem tokenFold_none_of_bad {tok : String} (hbad : parseToken tok = none) :
    ∀ (l : List String), tok ∈ l →
    ∀ acc : List (Int × ℚ),
      l.foldlM
        (fun acc tok => do
          let tp ← parseToken tok
          pure (dictInsert acc tp.1 tp.2))
        acc = none := by
  intro l
  induction l with
  | nil => intro h; cases h
  | cons a l ih =>
      intro hmem acc
      rw [List.foldlM_cons]
      rcases List.mem_cons.mp hmem with rfl | hmem2
      · rw [hbad]
        rfl
      · cases hp : parseToken a with
        | none => rfl
        | some tp => exact ih hmem2 (dictInsert acc tp.1 tp.2)

theorem parseWordTopRow_none_of_token {line : List String} {tok : String}
    (hbad : parseToken tok = none) (hmem : tok ∈ line.drop 2) :
    parseWordTopRow line = none := by
  unfold parseWordTopRow
  rw [tokenFold_none_of_bad hbad (line.drop 2) hmem []]
  rfl

/-! ## Claim theorems -/

/-- C5: for every topic-document data row the parser pairs the columns after
column 1 (`t = line[2:]`): it consumes exactly `⌊n/2⌋` pairs, the `k`-th pair
being columns `2k` and `2k+1` of `t` — so when `n` is odd the final column
(index `n-1`) is consumed by no pair, and when `n` is even every pair-data
column is consumed. -/
theorem c5_trailing_column_convention (line : List String) :
    (takePairs (line.drop 2)).length = (line.drop 2).length / 2
    ∧ takePairs (line.drop 2)
        = (List.range ((line.drop 2).length / 2)).map
            (fun k => ((line.drop 2).getD (2 * k) "", (line.drop 2).getD (2 * k + 1) ""))
    ∧ 2 * ((line.drop 2).length / 2)
        = (line.drop 2).length - (line.drop 2).length % 2 :=
  ⟨takePairs_length _, takePairs_eq _, by omega⟩

/-- C8: in the topic-keys stage, duplicate topic indices resolve
last-write-wins without error: when the parsed rows keyed `T` are exactly an
earlier row with value `v1` and a later row with value `v2`, the returned
mapping holds exactly one entry for `T`, and it is the later row's `v2`. -/
theorem c8_topic_keys_last_write {rows : List (List String)}
    {tk : List (Int × ℚ × List String)} {T : Int} {v1 v2 : ℚ × List String}
    (h : handle_topic_keys rows = .ok tk)
    (hfilter : (rows.filterMap parseTopicKeysKV).filter (fun r => r.1 = T)
        = [(T, v1), (T, v2)]) :
    dictLookup tk T = some v2
    ∧ tk.filter (fun r => r.1 = T) = [(T, v2)] := by
  have h2 : buildTable parseTopicKeysKV rows = .ok tk := h
  have hlook : dictLookup tk T = some v2 := by
    rw [buildTable_lookup h2 T, lastVal_eq_filter, hfilter]
    rfl
  exact ⟨hlook, filter_key_eq_single (buildTable_nodupKeys h2) (dictLookup_mem hlook)⟩

theorem c8_witness :
    (handle_topic_keys [["2", "0.1", "a b"], ["2", "0.2", "c d"]]
        = .ok [(2, (1 : ℚ)/5, ["c", "d"])])
    ∧ dictLookup [(2, ((1 : ℚ)/5, ["c", "d"]))] 2 = some ((1 : ℚ)/5, ["c", "d"]) :=
  ⟨by decide,
    (@c8_topic_keys_last_write [["2", "0.1", "a b"], ["2", "0.2", "c d"]]
      [(2, (1 : ℚ)/5, ["c", "d"])] 2 ((1 : ℚ)/10, ["a", "b"]) ((1 : ℚ)/5, ["c", "d"])
      (by decide) (by decide)).1⟩

/-- C9: when no metadata source is supplied, the metadata stage is skipped:
`load` succeeds whenever the other three stages succeed, the model's metadata
field is the absent variant `none`, and the other three structures equal
those of a run given a metadata source. -/
theorem c9_metadata_optional {a b c : List (List String)} {Z : Nat}
    {td : List (List ℚ)} {wt : List (List PFloat)}
    {tk : List (Int × ℚ × List String)}
    (h1 : handle_top_doc a Z = .ok td) (h2 : handle_word_top b Z = .ok wt)
    (h3 : handle_topic_keys c = .ok tk) :
    load a b c Z none = .ok ⟨td, wt, tk, none⟩
    ∧ (⟨td, wt, tk, none⟩ : LDAModel).md = none
    ∧ ∀ (mrows : List (List String)) (model : LDAModel),
        load a b c Z (some mrows) = .ok model →
        model.td = td ∧ model.wt = wt ∧ model.tk = tk := by
  refine ⟨load_of_parts h1 h2 h3, rfl, ?_⟩
  intro mrows model hok
  rcases load_ok_parts hok with ⟨htd, hwt, htk⟩
  rw [h1] at htd
  rw [h2] at hwt
  rw [h3] at htk
  injection htd with htd2
  injection hwt with hwt2
  injection htk with htk2
  exact ⟨htd2.symm, hwt2.symm, htk2.symm⟩

theorem c9_witness :
    (handle_top_doc [["h"], ["0", "d0", "0", "1.0"], ["1", "d1", "1", "1.0"],
        ["2", "d2", "0", "0.5"]] 2 = .ok [[1, 0], [0, 1], [(1 : ℚ)/2, 0]])
    ∧ load [["h"], ["0", "d0", "0", "1.0"], ["1", "d1", "1", "1.0"],
          ["2", "d2", "0", "0.5"]]
        [["0", "w", "0:1.0", "1:1.0"]] [["0", "0.5", "x y"]] 2 none
      = .ok ⟨[[1, 0], [0, 1], [(1 : ℚ)/2, 0]],
          [[PFloat.val 1], [PFloat.val 1]], [(0, (1 : ℚ)/2, ["x", "y"])], none⟩ :=
  ⟨by decide,
    (@c9_metadata_optional
      [["h"], ["0", "d0", "0", "1.0"], ["1", "d1", "1", "1.0"], ["2", "d2", "0", "0.5"]]
      [["0", "w", "0:1.0", "1:1.0"]] [["0", "0.5", "x y"]] 2
      [[1, 0], [0, 1], [(1 : ℚ)/2, 0]] [[PFloat.val 1], [PFloat.val 1]]
      [(0, (1 : ℚ)/2, ["x", "y"])] (by decide) (by decide) (by decide)).1⟩

/-- C7: a malformed `"topicIndex:count"` token (missing colon or non-numeric
part, e.g. `"abc:1.0"`) in a word-topic row makes the word-topic stage fail
with `MalformedRowError` naming that row, and `load` returns no Model. -/
theorem c7_malformed_token {Z : Nat} {pre post : List (List String)}
    {line : List String} {tok : String}
    (hpre : ∀ l ∈ pre, (parseWordTopKV l).isSome)
    (htok : tok ∈ line.drop 2) (hbad : parseToken tok = none) :
    handle_word_top (pre ++ line :: post) Z = .error (.malformedRow line)
    ∧ ∀ (a c : List (List String)) (md : Option (List (List String)))
        (model : LDAModel), load a (pre ++ line :: post) c Z md ≠ .ok model := by
  have hrow := parseWordTopRow_none_of_token hbad htok
  have hkv : parseWordTopKV line = none := by
    unfold parseWordTopKV
    rw [hrow]
    rfl
  have hb : buildWords (pre ++ line :: post) = .error (.malformedRow line) :=
    buildTable_err_at hpre hkv
  refine ⟨handle_word_top_err_build hb, ?_⟩
  intro a c md model hok
  rcases load_ok_parts hok with ⟨-, hwt, -⟩
  rw [handle_word_top_err_build hb] at hwt
  cases hwt

theorem c7_witness :
    parseToken "abc:1.0" = none
    ∧ handle_word_top [["0", "w", "abc:1.0"]] 3
        = .error (.malformedRow ["0", "w", "abc:1.0"]) :=
  ⟨by decide,
    (@c7_malformed_token 3 [] [] ["0", "w", "abc:1.0"] "abc:1.0"
      (fun l hl => absurd hl (List.not_mem_nil l)) (by simp) (by decide)).1⟩

/-- C2: the word-topic normalisation divides every row by its sum
unconditionally: a topic `t` in `0..Z-1` assigned to no word in the source
yields a raw all-zero row, and the stage returns successfully (it raises no
error — no `EmptyTopicError` exists in the code) with row `t` consisting
entirely of `nan` (the IEEE result of `0.0/0.0`), in particular not the
all-zero row. -/
theorem c2_zero_sum_row_nan {rows : List (List String)} {Z : Nat}
    {ws : List (Int × String × List (Int × ℚ))} {raw : List (List PFloat)}
    {t : Int}
    (hws : buildWords rows = .ok ws) (hfill : fillWordTop ws Z = .ok raw)
    (ht0 : 0 ≤ t) (htZ : t < (Z : Int))
    (hnw : ∀ wd ∈ ws, ∀ tp ∈ wd.2.2, 0 ≤ tp.1 ∧ tp.1 ≠ t)
    (hpos : 0 < ws.length) :
    handle_word_top rows Z = .ok (normalizeWt Z raw)
    ∧ (∀ y ∈ (normalizeWt Z raw).getD t.toNat [], y = PFloat.nan)
    ∧ ((normalizeWt Z raw).getD t.toNat []).length = ws.length
    ∧ (normalizeWt Z raw).getD t.toNat [] ≠ List.replicate ws.length (PFloat.val 0) := by
  have hrect := fillWordTop_rect hfill
  have htn : t.toNat < Z := by omega
  have hcells : ∀ j, j < ws.length → cell (.val 0) raw t.toNat j = .val 0 := by
    intro j hj
    rw [fillWordTop_cell hfill t.toNat j htn hj]
    apply lastWrite_eq_of_no_match
    intro w hw hmatch
    unfold wtWrites at hw
    rcases List.mem_flatMap.mp hw with ⟨wd, hwd, hmap⟩
    rcases List.mem_map.mp hmap with ⟨tp, htp, hweq⟩
    rcases hnw wd hwd tp htp with ⟨htp0, htpt⟩
    rw [← hweq] at hmatch
    rcases npIdx_of_nonneg htp0 hmatch.1 with ⟨heq, -⟩
    apply htpt
    omega
  have hrowzero : ∀ x ∈ raw.getD t.toNat [], x = .val 0 :=
    row_all_of_cells hrect htn hcells
  have hrawlen : t.toNat < raw.length := by
    rw [hrect.1]
    exact htn
  have hrowget : (normalizeWt Z raw).getD t.toNat []
      = normalizeRow (raw.getD t.toNat []) := by
    rw [normalizeWt_eq_map hrect.1]
    exact getD_map_lt normalizeRow raw [] [] hrawlen
  have hnan : ∀ y ∈ (normalizeWt Z raw).getD t.toNat [], y = PFloat.nan := by
    rw [hrowget]
    exact normalizeRow_zero_row hrowzero
  have hrowlen : ((normalizeWt Z raw).getD t.toNat []).length = ws.length := by
    rw [hrowget]
    unfold normalizeRow
    rw [List.length_map, List.getD_eq_getElem _ _ hrawlen]
    exact hrect.2 _ (List.getElem_mem hrawlen)
  refine ⟨handle_word_top_of_ok hws hfill, hnan, hrowlen, ?_⟩
  intro heq
  have hval : PFloat.val 0 ∈ (normalizeWt Z raw).getD t.toNat [] := by
    rw [heq]
    exact List.mem_replicate.mpr ⟨by omega, rfl⟩
  cases hnan _ hval

theorem c2_witness :
    (buildWords [["0", "w", "0:1.0", "2:1.0"]]
        = .ok [(0, ("w", [((0 : Int), (1 : ℚ)), (2, 1)]))])
    ∧ (fillWordTop [(0, ("w", [((0 : Int), (1 : ℚ)), (2, 1)]))] 3
        = .ok [[PFloat.val 1], [PFloat.val 0], [PFloat.val 1]])
    ∧ ∀ y ∈ (normalizeWt 3 [[PFloat.val 1], [PFloat.val 0], [PFloat.val 1]]).getD
        (1 : Int).toNat [], y = PFloat.nan :=
  ⟨by decide, by decide,
    (@c2_zero_sum_row_nan [["0", "w", "0:1.0", "2:1.0"]] 3
      [(0, ("w", [((0 : Int), (1 : ℚ)), (2, 1)]))]
      [[PFloat.val 1], [PFloat.val 0], [PFloat.val 1]] 1
      (by decide) (by decide) (by decide) (by decide) (by decide) (by decide)).2.1⟩

/-- C4: over exact rational arithmetic, when every raw topic row has nonzero
sum, every row of the returned TopicWordMatrix sums to exactly 1 after
normalisation, and normalising an already-normalised row is a no-op. -/
theorem c4_rows_sum_one {rows : List (List String)} {Z : Nat}
    {ws : List (Int × String × List (Int × ℚ))} {raw : List (List PFloat)}
    (hws : buildWords rows = .ok ws) (hfill : fillWordTop ws Z = .ok raw)
    (hnz : ∀ r ∈ raw, rowSum r ≠ .val 0) :
    handle_word_top rows Z = .ok (normalizeWt Z raw)
    ∧ ∀ r2 ∈ normalizeWt Z raw, rowSum r2 = .val 1 ∧ normalizeRow r2 = r2 := by
  have hrect := fillWordTop_rect hfill
  refine ⟨handle_word_top_of_ok hws hfill, ?_⟩
  intro r2 hr2
  rw [normalizeWt_eq_map hrect.1] at hr2
  rcases List.mem_map.mp hr2 with ⟨r, hr, hr2eq⟩
  rcases all_val_exists (fillWordTop_entries_val hfill r hr) with ⟨qs, rfl⟩
  have hs : qs.sum ≠ 0 := by
    intro h0
    apply hnz _ hr
    rw [rowSum_map_val, h0]
  have hsum : rowSum r2 = .val 1 := by
    rw [← hr2eq]
    exact rowSum_normalizeRow_val hs
  exact ⟨hsum, normalizeRow_of_sum_one hsum⟩

theorem c4_witness :
    (buildWords [["0", "a", "0:1.0", "1:3.0"], ["1", "b", "1:1.0", "0:1.0"]]
        = .ok [(0, ("a", [((0 : Int), (1 : ℚ)), (1, 3)])),
            (1, ("b", [((1 : Int), (1 : ℚ)), (0, 1)]))])
    ∧ rowSum [PFloat.val ((1 : ℚ)/2), PFloat.val ((1 : ℚ)/2)] = .val 1 :=
  ⟨by decide,
    ((@c4_rows_sum_one [["0", "a", "0:1.0", "1:3.0"], ["1", "b", "1:1.0", "0:1.0"]] 2
      [(0, ("a", [((0 : Int), (1 : ℚ)), (1, 3)])), (1, ("b", [((1 : Int), (1 : ℚ)), (0, 1)]))]
      [[PFloat.val 1, PFloat.val 1], [PFloat.val 3, PFloat.val 1]]
      (by decide) (by decide) (by decide)).2
      [PFloat.val ((1 : ℚ)/2), PFloat.val ((1 : ℚ)/2)] (by decide)).1⟩

/-- C1 counterexample: on a topic-document file whose data rows carry
document indices 0 and 2 (an index gap: max index 2, so the claim demands a
3-row matrix), the stage allocates only `len(documents) = 2` rows and the
fill of row 2 raises the index-out-of-range error — no matrix of
`max index + 1` rows is returned, so the claimed dimension law fails on
inputs with gaps. -/
theorem c1_counterexample :
    handle_top_doc [["doc", "name"], ["0", "d0", "0", "0.5"], ["2", "d2", "0", "0.5"]] 1
      = .error (.docIndexOutOfRange 2)
    ∧ ¬∃ m, handle_top_doc
          [["doc", "name"], ["0", "d0", "0", "0.5"], ["2", "d2", "0", "0.5"]] 1
        = .ok m ∧ m.length = 2 + 1 := by
  have heq : handle_top_doc
      [["doc", "name"], ["0", "d0", "0", "0.5"], ["2", "d2", "0", "0.5"]] 1
      = .error (.docIndexOutOfRange 2) := by decide
  refine ⟨heq, ?_⟩
  rintro ⟨m, hm, -⟩
  rw [heq] at hm
  cases hm

/-- C1 amended: the DocumentTopicMatrix has one row per distinct document
index (`len(documents)` rows — not max index + 1) and `Z` columns; every cell
holds the value of the last `(topicIndex, weight)` write resolving to it over
a zero initialisation (`lastWrite` over `tdWrites`, which performs
`td[doc, topic] = weight` per surviving pair); document indices outside the
NumPy range of `len(documents)` abort the stage instead (see the
counterexample). -/
theorem c1_amended_dims {rows : List (List String)} {Z : Nat}
    {docs : List (Int × String × List (Int × ℚ))} {td : List (List ℚ)}
    (h1 : buildDocuments rows = .ok docs) (h2 : fillTopDoc docs Z = .ok td) :
    handle_top_doc rows Z = .ok td
    ∧ td.length = docs.length
    ∧ (docs.map Prod.fst).Nodup
    ∧ (∀ r ∈ td, r.length = Z)
    ∧ ∀ i j : Nat, i < docs.length → j < Z →
        cell 0 td i j = lastWrite docs.length Z (tdWrites docs) i j 0 := by
  have h1b : buildTable parseTopDocKV (rows.drop 1) = .ok docs := h1
  refine ⟨?_, (fillTopDoc_rect h2).1, buildTable_nodupKeys h1b,
    (fillTopDoc_rect h2).2, ?_⟩
  · rw [handle_top_doc_of_ok h1]
    exact h2
  · intro i j hi hj
    exact fillTopDoc_cell h2 i j hi hj

theorem c1_amended_witness :
    (buildDocuments [["h"], ["0", "d0", "0", "0.5"], ["1", "d1", "0", "0.25"]]
        = .ok [(0, ("d0", [((0 : Int), (1 : ℚ)/2)])), (1, ("d1", [((0 : Int), (1 : ℚ)/4)]))])
    ∧ ([[(1 : ℚ)/2], [(1 : ℚ)/4]] : List (List ℚ)).length
        = [(0, ("d0", [((0 : Int), (1 : ℚ)/2)])), (1, ("d1", [((0 : Int), (1 : ℚ)/4)]))].length :=
  ⟨by decide,
    (@c1_amended_dims [["h"], ["0", "d0", "0", "0.5"], ["1", "d1", "0", "0.25"]] 1
      [(0, ("d0", [((0 : Int), (1 : ℚ)/2)])), (1, ("d1", [((0 : Int), (1 : ℚ)/4)]))]
      [[(1 : ℚ)/2], [(1 : ℚ)/4]] (by decide) (by decide)).2.1⟩

/-- C3 counterexample: the pair `(5, 0.7)` with topic index `5 ≥ Z = 3`
appears in a topic-document data row, yet `load` returns a Model: a later
row with the same document index 0 replaces the offending row in the
`documents` dict before the fill, so the out-of-range pair is silently
dropped and no error of any kind is raised. -/
theorem c3_counterexample :
    parseTopDocRow ["0", "d0", "5", "0.7"] = some (0, "d0", [(5, (7 : ℚ)/10)])
    ∧ (3 : Int) ≤ 5
    ∧ load [["doc", "name", "topics"], ["0", "d0", "5", "0.7"], ["0", "d0", "0", "1.0"]]
        [["0", "w", "0:1.0", "1:1.0", "2:1.0"]] [["0", "0.5", "alpha beta"]] 3 none
      = .ok ⟨[[1, 0, 0]], [[PFloat.val 1], [PFloat.val 1], [PFloat.val 1]],
          [(0, (1 : ℚ)/2, ["alpha", "beta"])], none⟩ :=
  ⟨by decide, by decide, by decide⟩

/-- C3 amended: a `(topicIndex, weight)` pair with `topicIndex ≥ Z` raises
the out-of-range error — and `load` returns no Model — provided the pair
survives document-row deduplication, i.e. it sits in the entry the
`documents` dict holds for its document index; a pair only in an earlier
overwritten duplicate row is silently discarded (see the counterexample). -/
theorem c3_amended {rows : List (List String)} {Z : Nat}
    {docs : List (Int × String × List (Int × ℚ))}
    {dd : Int × String × List (Int × ℚ)} {tp : Int × ℚ}
    (h1 : buildDocuments rows = .ok docs)
    (hdd : dd ∈ docs) (htp : tp ∈ dd.2.2) (hZ : (Z : Int) ≤ tp.1) :
    (∃ e, handle_top_doc rows Z = .error e)
    ∧ ∀ (b c : List (List String)) (md : Option (List (List String)))
        (model : LDAModel), load rows b c Z md ≠ .ok model := by
  have hbad : npIdx Z tp.1 = none := npIdx_none_of_ge hZ
  rcases fillTopDoc_err_of_bad (tdWrites_mem hdd htp) (Or.inr hbad) with ⟨e, he⟩
  refine ⟨⟨e, ?_⟩, ?_⟩
  · rw [handle_top_doc_of_ok h1]
    exact he
  · intro b c md model hok
    rcases load_ok_parts hok with ⟨htd, -, -⟩
    rw [handle_top_doc_of_ok h1, he] at htd
    cases htd

theorem c3_amended_witness :
    (buildDocuments [["h"], ["0", "d0", "5", "0.7"]]
        = .ok [(0, ("d0", [((5 : Int), (7 : ℚ)/10)]))])
    ∧ ∃ e, handle_top_doc [["h"], ["0", "d0", "5", "0.7"]] 3 = .error e :=
  ⟨by decide,
    (@c3_amended [["h"], ["0", "d0", "5", "0.7"]] 3
      [(0, ("d0", [((5 : Int), (7 : ℚ)/10)]))]
      (0, ("d0", [((5 : Int), (7 : ℚ)/10)])) ((5 : Int), (7 : ℚ)/10)
      (by decide) (by decide) (by decide) (by decide)).1⟩

/-- C6 counterexample: the word written first in the source is `"b"` with
integer word index 1, followed by `"a"` with index 0; first-appearance order
would put `"b"`'s normalised count `2/5` in column 0, but the code scatters
by the written index, so column 0 holds `"a"`'s `3/5` — column assignment
depends on the integer word index of column 0, not on appearance order. -/
theorem c6_counterexample :
    handle_word_top [["1", "b", "0:2.0"], ["0", "a", "0:3.0"]] 1
      = .ok [[PFloat.val ((3 : ℚ)/5), PFloat.val ((2 : ℚ)/5)]]
    ∧ PFloat.val ((3 : ℚ)/5) ≠ PFloat.val ((2 : ℚ)/5) :=
  ⟨by decide, by decide⟩

/-- C6 amended: the TopicWordMatrix has `Z` rows and `len(words)` columns,
and each raw cell holds the last `wt[topicIndex, wordIndex] = count` write
resolving to it, where `wordIndex` is the integer written in column 0 of the
row (NumPy-resolved against `len(words)`) — not the first-appearance rank;
the two coincide only when the written indices enumerate the words in
appearance order. -/
theorem c6_amended {rows : List (List String)} {Z : Nat}
    {ws : List (Int × String × List (Int × ℚ))} {raw : List (List PFloat)}
    (hws : buildWords rows = .ok ws) (hfill : fillWordTop ws Z = .ok raw) :
    handle_word_top rows Z = .ok (normalizeWt Z raw)
    ∧ raw.length = Z
    ∧ (∀ r ∈ raw, r.length = ws.length)
    ∧ ∀ i j : Nat, i < Z → j < ws.length →
        cell (.val 0) raw i j = lastWrite Z ws.length (wtWrites ws) i j (.val 0) :=
  ⟨handle_word_top_of_ok hws hfill, (fillWordTop_rect hfill).1,
    (fillWordTop_rect hfill).2, fun i j hi hj => fillWordTop_cell hfill i j hi hj⟩

theorem c6_amended_witness :
    (buildWords [["1", "b", "0:2.0"], ["0", "a", "0:3.0"]]
        = .ok [(1, ("b", [((0 : Int), (2 : ℚ))])), (0, ("a", [((0 : Int), (3 : ℚ))]))])
    ∧ ([[PFloat.val 3, PFloat.val 2]] : List (List PFloat)).length = 1 :=
  ⟨by decide,
    (@c6_amended [["1", "b", "0:2.0"], ["0", "a", "0:3.0"]] 1
      [(1, ("b", [((0 : Int), (2 : ℚ))])), (0, ("a", [((0 : Int), (3 : ℚ))]))]
      [[PFloat.val 3, PFloat.val 2]] (by decide) (by decide)).2.1⟩

/-- C10: row-level last-write-wins in the topic-document stage: when the
parsed data rows keyed `D` are exactly an earlier row `v1` and a later row
`v2`, the `documents` dict holds `v2` wholesale, and a topic `t` listed only
in the earlier row contributes nothing — the cell `[D, t]` of the returned
matrix is 0 (hypotheses keep all indices nonnegative and in range so that
no other row aliases cell `[D, t]` through NumPy wrap-around). -/
theorem c10_row_level_last_write {rows : List (List String)} {Z : Nat}
    {docs : List (Int × String × List (Int × ℚ))} {td : List (List ℚ)}
    {D : Int} {v1 v2 : String × List (Int × ℚ)} {t : Int}
    (h1 : buildDocuments rows = .ok docs)
    (h2 : fillTopDoc docs Z = .ok td)
    (hfilter : (((rows.drop 1).filterMap parseTopDocKV).filter (fun r => r.1 = D))
        = [(D, v1), (D, v2)])
    (hkeys : ∀ dd ∈ docs, 0 ≤ dd.1)
    (htopics : ∀ dd ∈ docs, ∀ tp ∈ dd.2.2, 0 ≤ tp.1)
    (hD : D < (docs.length : Int))
    (ht0 : 0 ≤ t) (htZ : t < (Z : Int))
    (ht1 : t ∈ v1.2.map Prod.fst)
    (ht2 : t ∉ v2.2.map Prod.fst) :
    dictLookup docs D = some v2
    ∧ handle_top_doc rows Z = .ok td
    ∧ cell 0 td D.toNat t.toNat = 0 := by
  have h1b : buildTable parseTopDocKV (rows.drop 1) = .ok docs := h1
  have hlook : dictLookup docs D = some v2 := by
    rw [buildTable_lookup h1b D, lastVal_eq_filter, hfilter]
    rfl
  have hmem : (D, v2) ∈ docs := dictLookup_mem hlook
  have hD0 : 0 ≤ D := hkeys _ hmem
  have hDn : D.toNat < docs.length := by omega
  have htn : t.toNat < Z := by omega
  have hnd := buildTable_nodupKeys h1b
  refine ⟨hlook, by rw [handle_top_doc_of_ok h1]; exact h2, ?_⟩
  rw [fillTopDoc_cell h2 D.toNat t.toNat hDn htn]
  apply lastWrite_eq_of_no_match
  intro w hw hmatch
  unfold tdWrites at hw
  rcases List.mem_flatMap.mp hw with ⟨dd, hdd, hmap⟩
  rcases List.mem_map.mp hmap with ⟨tp, htp, hweq⟩
  rw [← hweq] at hmatch
  rcases npIdx_of_nonneg (hkeys dd hdd) hmatch.1 with ⟨hdeq, -⟩
  have hddD : dd.1 = D := by omega
  have hval : dd.2 = v2 := by
    have hl2 := dictLookup_of_mem_nodup hnd hdd
    rw [hddD, hlook] at hl2
    injection hl2 with h
    exact h.symm
  rcases npIdx_of_nonneg (htopics dd hdd tp htp) hmatch.2 with ⟨hteq, -⟩
  have htpt : tp.1 = t := by omega
  have hmemv : tp.1 ∈ v2.2.map Prod.fst := by
    rw [← hval]
    exact List.mem_map_of_mem Prod.fst htp
  rw [htpt] at hmemv
  exact ht2 hmemv

theorem c10_witness :
    (buildDocuments [["h"], ["0", "d0", "1", "0.9"], ["0", "d0", "0", "1.0"]]
        = .ok [(0, ("d0", [((0 : Int), (1 : ℚ))]))])
    ∧ cell 0 ([[1, 0]] : List (List ℚ)) (0 : Int).toNat (1 : Int).toNat = 0 :=
  ⟨by decide,
    (@c10_row_level_last_write
      [["h"], ["0", "d0", "1", "0.9"], ["0", "d0", "0", "1.0"]] 2
      [(0, ("d0", [((0 : Int), (1 : ℚ))]))] [[1, 0]] 0
      ("d0", [((1 : Int), (9 : ℚ)/10)]) ("d0", [((0 : Int), (1 : ℚ))]) 1
      (by decide) (by decide) (by decide) (by decide) (by decide) (by decide)
      (by decide) (by decide) (by decide) (by decide)).2.2⟩
